import Mathlib

/-!
# subgo: a verification development of `main.go`

`main.go` asks two services for the subdomains of a domain, extracts names from
the two answers, normalises the names of the second answer, removes duplicates
and writes one name per line.

Go strings are immutable byte sequences, so a string is a list of bytes here.
The functions `filterUnwantedChars` and `removeDuplicates` and the body of
`main` are transcribed from `main.go`; the standard-library functions they call
(`strings.Replace`, `regexp.FindAllString`, `fmt.Fprintln`) are transcribed from
their documented behaviour.
-/

namespace Subgo

/-! ## Strings -/

/-- A Go `string`: a sequence of bytes. -/
abbrev GoString := List UInt8

/-- The bytes of an ASCII string constant. -/
def str (s : String) : GoString := s.toList.map (fun c => UInt8.ofNat c.toNat)

/-- The scan behind `strings.Replace` for a non-empty `old`: from left to right,
the first `n` non-overlapping instances of `old` are replaced by `new` (all of
them when `n` is negative). The first argument bounds the number of steps; the
length of the string is enough, since every step consumes a byte. -/
def replaceLoop (old new : GoString) : Nat → Int → GoString → GoString
  | 0, _, s => s
  | fuel + 1, n, s =>
    if n = 0 then s
    else if old.isPrefixOf s then
      new ++ replaceLoop old new fuel (n - 1) (s.drop old.length)
    else
      match s with
      | [] => []
      | x :: xs => x :: replaceLoop old new fuel n xs

/-- Go: `strings.Replace(s, old, new, n)`, "a copy of the string s with the first
n non-overlapping instances of old replaced by new; if n < 0, there is no limit
on the number of replacements". The string is returned unchanged when
`old == new` or `n == 0`. `main.go` only calls it with a non-empty `old`; the
model does not cover an empty `old` (Go then inserts `new` between the runes)
and returns `s` for it. -/
def Replace (s old new : GoString) (n : Int) : GoString :=
  if old = new ∨ old = [] then s else replaceLoop old new s.length n s

/-- The three bytes `\341\205\232` (octal), that is `E1 85 9A`. -/
def junkUnit : GoString := [0xE1, 0x85, 0x9A]

/-- The string literal of `filterUnwantedChars`: 29 copies of `\341\205\232`. -/
def junk : GoString := (List.replicate 29 junkUnit).flatten

/-- The wildcard marker `"*."`. -/
def star : GoString := [0x2A, 0x2E]

/-- Go:
```
func filterUnwantedChars(s string) string {
	s = strings.Replace(s, "\341\205\232...", "", -1)
	s = strings.Replace(s, "*.", "", -1)
	return s
}
``` -/
def filterUnwantedChars (s : GoString) : GoString :=
  let s := Replace s junk [] (-1)
  let s := Replace s star [] (-1)
  s

/-- The two statements `main` applies to a `name_value`:
```
nameValue = strings.Replace(nameValue, "*.", "", 1)
nameValue = filterUnwantedChars(nameValue)
``` -/
def normalise (nameValue : GoString) : GoString :=
  let nameValue := Replace nameValue star [] 1
  let nameValue := filterUnwantedChars nameValue
  nameValue

/-- No byte `E1` is one of the two bytes that follow a byte `E1`. In UTF-8 text
`E1` only occurs as the first byte of a three-byte character, followed by two
continuation bytes (`80` to `BF`), so every valid UTF-8 text passes. -/
def leadBytesApart : GoString → Bool
  | [] => true
  | x :: xs => (x != 0xE1 || !(xs.take 2).contains 0xE1) && leadBytesApart xs

/-- A UTF-8 continuation byte, `80` to `BF`. -/
def isContinuation (b : UInt8) : Bool := decide (0x80 ≤ b ∧ b ≤ 0xBF)

/-- The string starts with two continuation bytes. -/
def twoContinuations : GoString → Bool
  | y :: z :: _ => isContinuation y && isContinuation z
  | _ => false

/-- Every byte `E1` is followed by two continuation bytes. In UTF-8 text `E1` is
the first byte of a three-byte character, so every valid UTF-8 text passes. -/
def leadBytesFollowed : GoString → Bool
  | [] => true
  | x :: xs => (x != 0xE1 || twoContinuations xs) && leadBytesFollowed xs

/-- No byte `*` comes directly after a byte `9A`, the last byte of the unit
`E1 85 9A`. The first argument says whether the byte before the string is `9A`;
it is `false` for a whole name. -/
def starsClearOf9A : Bool → GoString → Bool
  | _, [] => true
  | after9A, x :: xs => !(after9A && x == 0x2A) && starsClearOf9A (x == 0x9A) xs

/-! ## Deduplication -/

/-- The loop of `removeDuplicates`. `seen` is the map `map[string]bool`, read as
the function that gives `false` for an absent key:
```
for _, str := range s {
	if !seen[str] {
		seen[str] = true
		result = append(result, str)
	}
}
``` -/
def removeDuplicatesLoop :
    (GoString → Bool) → List GoString → List GoString → List GoString
  | _, result, [] => result
  | seen, result, x :: rest =>
    if !seen x then
      removeDuplicatesLoop (fun k => if k = x then true else seen k) (result ++ [x]) rest
    else
      removeDuplicatesLoop seen result rest

/-- Go: `func removeDuplicates(s []string) []string`, starting from the empty map
and the empty result. -/
def removeDuplicates (s : List GoString) : List GoString :=
  removeDuplicatesLoop (fun _ => false) [] s

/-- The reference the specification describes: the element at position `i` is
kept iff it does not occur among the elements before position `i`. -/
def keepFirstOccurrences (s : List GoString) : List GoString :=
  (s.enum.filter (fun p => decide (p.2 ∉ s.take p.1))).map Prod.snd

/-! ## Source A: the pattern and `FindAllString` -/

/-- The regular-expression syntax the pattern of `main` uses. -/
inductive Regex where
  /-- A literal string, such as `www\.`. -/
  | lit (s : GoString)
  /-- A negated one-character class, such as `[^/]`: any byte but this one. -/
  | notByte (b : UInt8)
  /-- Concatenation. -/
  | seq (r₁ r₂ : Regex)
  /-- Alternation, the left alternative preferred. -/
  | alt (r₁ r₂ : Regex)
  /-- Greedy `r?`: one occurrence preferred over none. -/
  | opt (r : Regex)
  /-- Greedy `r+`: another repetition preferred over stopping. -/
  | plus (r : Regex)

/-- The repetition of `r+`: `step` gives the remainders after one `r`. After each
`r` that consumed input, more repetitions are tried before stopping there. -/
def plusLoop (step : GoString → List GoString) : Nat → GoString → List GoString
  | 0, _ => []
  | fuel + 1, s =>
    (step s).flatMap (fun s' =>
      (if s'.length < s.length then plusLoop step fuel s' else []) ++ [s'])

/-- All ways `r` matches a prefix of `s`, each given by the input that remains
after it, in the order a backtracking matcher tries them. Go's `regexp` returns
the match "that a backtracking search would have found first" (leftmost-first),
which is the head of this list. -/
def Regex.ends : Regex → GoString → List GoString
  | .lit l, s => if l.isPrefixOf s then [s.drop l.length] else []
  | .notByte _, [] => []
  | .notByte b, x :: xs => if x = b then [] else [xs]
  | .seq r₁ r₂, s => (r₁.ends s).flatMap (fun s' => r₂.ends s')
  | .alt r₁ r₂, s => r₁.ends s ++ r₂.ends s
  | .opt r, s => r.ends s ++ [s]
  | .plus r, s => plusLoop (fun t => r.ends t) (s.length + 1) s

/-- The loop of `FindAllString(s, -1)` (`allMatches` in Go's `regexp`): the
leftmost match is taken, the search goes on where it ended, and an empty match is
dropped when it lies right after the previous match. `afterMatch` says that the
current position is the end of the previous match. The position advances bytewise
(Go advances by one UTF-8 rune, which is one byte in ASCII text). -/
def findAllLoop (r : Regex) : Nat → Bool → GoString → List GoString
  | 0, _, _ => []
  | fuel + 1, afterMatch, s =>
    match (r.ends s).head? with
    | some rest =>
      let m := s.take (s.length - rest.length)
      if m = [] then
        (if afterMatch then [] else [[]]) ++
          (match s with
           | [] => []
           | _ :: t => findAllLoop r fuel false t)
      else m :: findAllLoop r fuel true rest
    | none =>
      match s with
      | [] => []
      | _ :: t => findAllLoop r fuel false t

/-- Go: `re.FindAllString(s, -1)`, all successive non-overlapping matches. -/
def FindAllString (r : Regex) (s : GoString) : List GoString :=
  findAllLoop r (s.length + 1) false s

/-- The class `[^/]`. -/
def notSlash : Regex := .notByte 0x2F

/-- Go: ``regexp.MustCompile(`https?://[^/]+|www\.[^/]+|[^/]+\.com`)``. -/
def jldcRegex : Regex :=
  .alt (.seq (.lit (str "http")) (.seq (.opt (.lit (str "s")))
          (.seq (.lit (str "://")) (.plus notSlash))))
    (.alt (.seq (.lit (str "www.")) (.plus notSlash))
      (.seq (.plus notSlash) (.lit (str ".com"))))

/-! ## Source B: records and name extraction -/

/-- The values `json.Unmarshal` stores in an `interface{}`: `nil`, `bool`,
`float64` (kept as the text of the number), `string`, `[]interface{}` and
`map[string]interface{}`. -/
inductive JSONValue where
  | null
  | bool (b : Bool)
  | number (text : GoString)
  | string (s : GoString)
  | array (elems : List JSONValue)
  | object (fields : List (GoString × JSONValue))

/-- One element of `crtData`, a `map[string]interface{}`, as the list of its
entries; a key is looked up from the front. The nil map is the empty list. -/
abbrev Record := List (GoString × JSONValue)

/-- Go: `entry["name_value"].(string)`: the string and `true` when the key is
present with a string value, otherwise not ok. -/
def nameValueOf (entry : Record) : Option GoString :=
  match entry.lookup (str "name_value") with
  | some (.string nameValue) => some nameValue
  | _ => none

/-- The loop that fills `crtSubdomains`:
```
for _, entry := range crtData {
	nameValue, ok := entry["name_value"].(string)
	if ok {
		nameValue = strings.Replace(nameValue, "*.", "", 1)
		nameValue = filterUnwantedChars(nameValue)
		crtSubdomains = append(crtSubdomains, nameValue)
	}
}
``` -/
def crtSubdomainsLoop : List GoString → List Record → List GoString
  | crtSubdomains, [] => crtSubdomains
  | crtSubdomains, entry :: rest =>
    match nameValueOf entry with
    | some nameValue => crtSubdomainsLoop (crtSubdomains ++ [normalise nameValue]) rest
    | none => crtSubdomainsLoop crtSubdomains rest

/-- The names extracted from `crtData`, starting from `make([]string, 0)`. -/
def crtSubdomainsOf (crtData : List Record) : List GoString :=
  crtSubdomainsLoop [] crtData

/-! ## Aggregation and the writer -/

/-- Go:
```
allSubdomains := append(jldcSubdomains, crtSubdomains...)
allSubdomains = removeDuplicates(allSubdomains)
``` -/
def allSubdomainsOf (jldcSubdomains : List GoString) (crtData : List Record) :
    List GoString :=
  removeDuplicates (jldcSubdomains ++ crtSubdomainsOf crtData)

/-- The newline byte. -/
def newline : UInt8 := 0x0A

/-- The bytes the writer loop sends to the file, every write taken to succeed
(`main` ignores the result of `Fprintln`):
```
for _, subdomain := range allSubdomains {
	fmt.Fprintln(outputFileHandle, subdomain)
}
``` -/
def writeLoop : GoString → List GoString → GoString
  | file, [] => file
  | file, subdomain :: rest => writeLoop (file ++ (subdomain ++ [newline])) rest

/-- The content of the freshly created output file after the writer loop. -/
def fileText (allSubdomains : List GoString) : GoString :=
  writeLoop [] allSubdomains

/-- Splitting a text at newline bytes: `cur` is the line being read. -/
def splitLinesFrom : GoString → GoString → List GoString
  | cur, [] => if cur = [] then [] else [cur]
  | cur, b :: rest =>
    if b = newline then cur :: splitLinesFrom [] rest
    else splitLinesFrom (cur ++ [b]) rest

/-- The lines of a text: every newline byte ends a line; bytes after the last
newline form a last, unterminated line. -/
def splitLines (text : GoString) : List GoString :=
  splitLinesFrom [] text

/-! ## The run of `main` -/

/-- What one `http.Get` followed by `ioutil.ReadAll` does. -/
inductive Fetch where
  /-- `http.Get` returned an error. -/
  | requestError (err : GoString)
  /-- `ioutil.ReadAll(resp.Body)` returned an error. -/
  | readError (err : GoString)
  /-- The body was read. -/
  | body (b : GoString)

/-- The variable `crtData`, a slice `[]map[string]interface{}`: its elements, and
the elements that an earlier decode left in its backing array beyond its length.
The nil slice has neither. -/
structure CrtData where
  elems : List Record
  spare : List Record

/-- The word by which an `UnmarshalTypeError` names a JSON value. -/
def jsonKind : JSONValue → GoString
  | .null => str "null"
  | .bool _ => str "bool"
  | .number _ => str "number"
  | .string _ => str "string"
  | .array _ => str "array"
  | .object _ => str "object"

/-- Decoding one JSON value into an element of the slice, a map that may already
hold entries. An object is decoded into the existing map ("Unmarshal reuses the
existing map, keeping existing entries"; a nil map is allocated first): its
members are set in order, so they come before the old entries here, later members
first. `null` sets the map to nil. Any other value does not fit a map: the element
is left as it is and the type error is recorded. -/
def decodeElement (old : Record) : JSONValue → Record × Option GoString
  | .object fields => (fields.reverse ++ old, none)
  | .null => ([], none)
  | v => (old, some (jsonKind v))

/-- Decoding the elements of a JSON array into the slice. Element `i` is decoded
into what the backing array holds at index `i`: the slice is not cleared first, and
an index beyond the backing array holds a nil map. The earliest type error is
kept and decoding goes on ("Unmarshal skips that field and completes the
unmarshaling as best it can"). -/
def decodeElements : List JSONValue → List Record → List Record × Option GoString
  | [], _ => ([], none)
  | e :: es, backing =>
    let (m, err) := decodeElement (backing.headD []) e
    let (ms, errs) := decodeElements es backing.tail
    (m :: ms, err.orElse (fun _ => errs))

/-- Go: `json.Unmarshal(crtBody, &crtData)` for a body that is the JSON text of
`doc`, from the documentation and the decoder of `encoding/json`. It gives the
value of `crtData` after the call and the error. An array is decoded element by
element into the slice, whose length becomes the number of elements; the empty
array gives a new empty slice. `null` gives the nil slice. Any other value does
not fit a slice: `crtData` is left as it is and a type error is returned. -/
def unmarshal (doc : JSONValue) (crtData : CrtData) : CrtData × Option GoString :=
  match doc with
  | .array [] => (⟨[], []⟩, none)
  | .array elems =>
    let backing := crtData.elems ++ crtData.spare
    let (decoded, err) := decodeElements elems backing
    (⟨decoded, backing.drop elems.length⟩,
      err.map (fun kind => str "json: cannot unmarshal " ++ kind ++
        str " into Go value of type map[string]interface \x7b\x7d"))
  | .null => (⟨[], []⟩, none)
  | v =>
    (crtData, some (str "json: cannot unmarshal " ++ jsonKind v ++
      str " into Go value of type []map[string]interface \x7b\x7d"))

/-- What one request to crt.sh brings: an error of the request, an error of the
reading of the body, a body that is not JSON text, or a body that is the JSON text
of a value. -/
inductive CrtFetch where
  /-- `http.Get` returned an error. -/
  | requestError (err : GoString)
  /-- `ioutil.ReadAll(resp.Body)` returned an error. -/
  | readError (err : GoString)
  /-- The body is not valid JSON: `json.Unmarshal` checks the whole text before it
  decodes, returns the syntax error and leaves `crtData` as it is. -/
  | invalidJSON (err : GoString)
  /-- The body is the JSON text of `doc`. -/
  | document (doc : JSONValue)

/-- The world `main` runs in: the answer of every call it makes, by argument and,
for the requests, by the number of the attempt. -/
structure World where
  /-- Go: `filepath.Dir`. -/
  filepathDir : GoString → GoString
  /-- Go: `os.MkdirAll(dir, 0755)`, the error if it fails. -/
  mkdirAll : GoString → Option GoString
  /-- The attempts on the jldc.me URL. -/
  jldc : GoString → Nat → Fetch
  /-- The attempts on the crt.sh URL. -/
  crt : GoString → Nat → CrtFetch
  /-- Go: `os.Create(path)`, the error if it fails. -/
  create : GoString → Option GoString

/-- The observable steps of a run, in order. -/
inductive Event where
  /-- `log.Fatal`: the message is logged and the process exits with status 1. -/
  | fatal (msg : GoString)
  | mkdirAll (dir : GoString)
  | httpGet (url : GoString)
  /-- `log.Printf` with the format applied to the error. -/
  | logPrintf (msg : GoString)
  /-- `time.Sleep(time.Second)`. -/
  | sleep
  | create (path : GoString)
  /-- One `Fprintln` on the output file. -/
  | write (bytes : GoString)
deriving DecidableEq

/-- The jldc.me loop, `for retry := 0; retry < 3; retry++`: the first argument is
`3 - retry`. It gives the steps taken and the final `jldcSubdomains`, which stays
nil when no attempt reaches `FindAllString`. -/
def jldcLoop (w : World) (jldcURL : GoString) : Nat → Nat → List Event × List GoString
  | 0, _ => ([], [])
  | left + 1, retry =>
    match w.jldc jldcURL retry with
    | .requestError err =>
      let (events, jldcSubdomains) := jldcLoop w jldcURL left (retry + 1)
      (.httpGet jldcURL :: .logPrintf (str "Error getting jldc subdomains: " ++ err) ::
        .sleep :: events, jldcSubdomains)
    | .readError err =>
      let (events, jldcSubdomains) := jldcLoop w jldcURL left (retry + 1)
      (.httpGet jldcURL :: .logPrintf (str "Error reading jldc response: " ++ err) ::
        events, jldcSubdomains)
    | .body jldcBody => ([.httpGet jldcURL], FindAllString jldcRegex jldcBody)

/-- The crt.sh loop, `for retry := 0; retry < 3; retry++`: the first argument is
`3 - retry`, the third the current value of `crtData`, declared before the loop and
passed by pointer to every `json.Unmarshal`. It gives the steps taken and the final
`crtData`. -/
def crtLoop (w : World) (crtURL : GoString) :
    Nat → Nat → CrtData → List Event × CrtData
  | 0, _, crtData => ([], crtData)
  | left + 1, retry, crtData =>
    match w.crt crtURL retry with
    | .requestError err =>
      let (events, crtData) := crtLoop w crtURL left (retry + 1) crtData
      (.httpGet crtURL :: .logPrintf (str "Error getting crt subdomains: " ++ err) ::
        .sleep :: events, crtData)
    | .readError err =>
      let (events, crtData) := crtLoop w crtURL left (retry + 1) crtData
      (.httpGet crtURL :: .logPrintf (str "Error reading crt response: " ++ err) ::
        events, crtData)
    | .invalidJSON err =>
      let (events, crtData) := crtLoop w crtURL left (retry + 1) crtData
      (.httpGet crtURL :: .logPrintf (str "Error unmarshaling crt response: " ++ err) ::
        events, crtData)
    | .document doc =>
      match unmarshal doc crtData with
      | (crtData, some err) =>
        let (events, crtData) := crtLoop w crtURL left (retry + 1) crtData
        (.httpGet crtURL :: .logPrintf (str "Error unmarshaling crt response: " ++ err) ::
          events, crtData)
      | (crtData, none) => ([.httpGet crtURL], crtData)

/-- An attempt on jldc.me fails when the loop goes on to the next attempt: the
request or the reading of the body returned an error. -/
def Fetch.failed : Fetch → Bool
  | .body _ => false
  | _ => true

/-- An attempt on crt.sh fails when the loop goes on to the next attempt: the
request, the reading of the body or `json.Unmarshal` returned an error. Whether
`json.Unmarshal` returns an error depends on the body alone. -/
def CrtFetch.failed : CrtFetch → Bool
  | .document doc => (unmarshal doc ⟨[], []⟩).2.isSome
  | _ => true

/-- The number of requests among the steps of a run. -/
def requestsMade (events : List Event) : Nat :=
  events.countP (fun e => match e with
    | .httpGet _ => true
    | _ => false)

/-- How a run ends. -/
inductive Exit where
  /-- `main` returned. -/
  | returned
  /-- `log.Fatal` ended the process. -/
  | fatal
deriving DecidableEq

/-- A run of `main`: its steps, how it ended, and the content of the output file
if the run created it. -/
structure Run where
  events : List Event
  exit : Exit
  file : Option GoString

/-- Go: `fmt.Sprintf("https://jldc.me/anubis/subdomains/%s", *domain)`. -/
def jldcURLOf (domain : GoString) : GoString :=
  str "https://jldc.me/anubis/subdomains/" ++ domain

/-- Go: `fmt.Sprintf("https://crt.sh/?q=%%25.%s&output=json", *domain)`. -/
def crtURLOf (domain : GoString) : GoString :=
  str "https://crt.sh/?q=%25." ++ domain ++ str "&output=json"

/-- Go: `func main()`, from the values of the flags `-d` and `-o` on. -/
def main (w : World) (domain outputFile : GoString) : Run :=
  if domain = [] then
    ⟨[.fatal (str "Please provide a domain using the -d flag")], .fatal, none⟩
  else if outputFile = [] then
    ⟨[.fatal (str "Please provide an output file using the -o flag")], .fatal, none⟩
  else
    let outputDir := w.filepathDir outputFile
    match w.mkdirAll outputDir with
    | some err => ⟨[.mkdirAll outputDir, .fatal err], .fatal, none⟩
    | none =>
      let (jldcEvents, jldcSubdomains) := jldcLoop w (jldcURLOf domain) 3 0
      let (crtEvents, crtData) := crtLoop w (crtURLOf domain) 3 0 ⟨[], []⟩
      let allSubdomains := allSubdomainsOf jldcSubdomains crtData.elems
      let fetched := .mkdirAll outputDir :: (jldcEvents ++ crtEvents)
      match w.create outputFile with
      | some err => ⟨fetched ++ [.create outputFile, .fatal err], .fatal, none⟩
      | none =>
        ⟨fetched ++ .create outputFile ::
            allSubdomains.map (fun subdomain => .write (subdomain ++ [newline])),
          .returned, some (fileText allSubdomains)⟩

/-! ## Example worlds -/

/-- A world in which the first two attempts on each source fail and the third
succeeds: jldc.me answers with a text, crt.sh with one record. -/
def retryWorld : World where
  filepathDir := fun _ => str "out"
  mkdirAll := fun _ => none
  jldc := fun _ retry =>
    match retry with
    | 0 => .requestError (str "timeout")
    | 1 => .readError (str "unexpected EOF")
    | _ => .body (str "see www.a.example.com/")
  crt := fun _ retry =>
    match retry with
    | 0 => .requestError (str "timeout")
    | 1 => .invalidJSON (str "unexpected end of JSON input")
    | _ => .document (.array [.object [(str "name_value", .string (str "*.b.example.com"))]])
  create := fun _ => none

/-- The JSON value of the body `[{"name_value":"x.example.com"},5]`. -/
def staleBody : JSONValue :=
  .array [.object [(str "name_value", .string (str "x.example.com"))], .number (str "5")]

/-- A world in which every request to jldc.me fails and crt.sh answers every
request with the body `[{"name_value":"x.example.com"},5]`. The second element is
not an object, so `json.Unmarshal` returns an `UnmarshalTypeError`; by then it has
stored the first element in `crtData` (and a nil map for the second). -/
def staleWorld : World where
  filepathDir := fun _ => str "out"
  mkdirAll := fun _ => none
  jldc := fun _ _ => .requestError (str "timeout")
  crt := fun _ _ => .document staleBody
  create := fun _ => none

/-- The JSON value of the body `[{"name_value":"stale.example.com"},5]`. -/
def brokenBody : JSONValue :=
  .array [.object [(str "name_value", .string (str "stale.example.com"))], .number (str "5")]

/-- The JSON value of the body `[{"id":1}]`: one record without `name_value`. -/
def cleanBody : JSONValue :=
  .array [.object [(str "id", .number (str "1"))]]

/-- A world in which jldc.me answers at once with an empty body, and crt.sh
answers the first two requests with `[{"name_value":"stale.example.com"},5]`, on
which `json.Unmarshal` returns a type error, and the third with `[{"id":1}]`, on
which it returns no error. -/
def mergeWorld : World where
  filepathDir := fun _ => str "out"
  mkdirAll := fun _ => none
  jldc := fun _ _ => .body []
  crt := fun _ retry =>
    match retry with
    | 0 => .document brokenBody
    | 1 => .document brokenBody
    | _ => .document cleanBody
  create := fun _ => none
/-! ## Deduplication: lemmas -/

theorem removeDuplicatesLoop_acc (seen : GoString → Bool) (result rest : List GoString) :
    removeDuplicatesLoop seen result rest = result ++ removeDuplicatesLoop seen [] rest := by
  induction rest generalizing seen result with
  | nil => simp [removeDuplicatesLoop]
  | cons x xs ih =>
    simp only [removeDuplicatesLoop]
    split
    · rw [ih, ih _ ([] ++ [x])]; simp
    · exact ih _ _

theorem removeDuplicatesLoop_cons (seen : GoString → Bool) (x : GoString)
    (xs : List GoString) :
    removeDuplicatesLoop seen [] (x :: xs) =
      if seen x = true then removeDuplicatesLoop seen [] xs
      else x :: removeDuplicatesLoop (fun k => if k = x then true else seen k) [] xs := by
  simp only [removeDuplicatesLoop]
  cases h : seen x
  · rw [removeDuplicatesLoop_acc]; simp
  · simp

theorem removeDuplicatesLoop_mem (seen : GoString → Bool) (rest : List GoString)
    (y : GoString) :
    y ∈ removeDuplicatesLoop seen [] rest ↔ y ∈ rest ∧ seen y = false := by
  induction rest generalizing seen with
  | nil => simp [removeDuplicatesLoop]
  | cons x xs ih =>
    rw [removeDuplicatesLoop_cons]
    by_cases h : seen x = true
    · rw [if_pos h, ih, List.mem_cons]
      constructor
      · rintro ⟨h1, h2⟩; exact ⟨Or.inr h1, h2⟩
      · rintro ⟨h1 | h1, h2⟩
        · rw [h1, h] at h2; exact absurd h2 (by simp)
        · exact ⟨h1, h2⟩
    · rw [if_neg h, List.mem_cons, ih, List.mem_cons]
      have hx : seen x = false := by simpa using h
      by_cases hyx : y = x
      · subst hyx; simp [hx]
      · simp [hyx]

theorem removeDuplicatesLoop_nodup (seen : GoString → Bool) (rest : List GoString) :
    (removeDuplicatesLoop seen [] rest).Nodup := by
  induction rest generalizing seen with
  | nil => simp [removeDuplicatesLoop]
  | cons x xs ih =>
    rw [removeDuplicatesLoop_cons]
    by_cases h : seen x = true
    · rw [if_pos h]; exact ih _
    · rw [if_neg h, List.nodup_cons]
      refine ⟨?_, ih _⟩
      rw [removeDuplicatesLoop_mem]; simp

theorem removeDuplicatesLoop_append (seen : GoString → Bool) (a b : List GoString) :
    removeDuplicatesLoop seen [] (a ++ b) =
      removeDuplicatesLoop seen [] a ++
        removeDuplicatesLoop (fun k => seen k || decide (k ∈ a)) [] b := by
  induction a generalizing seen with
  | nil => simp [removeDuplicatesLoop]
  | cons x xs ih =>
    rw [List.cons_append, removeDuplicatesLoop_cons, removeDuplicatesLoop_cons]
    by_cases h : seen x = true
    · rw [if_pos h, if_pos h, ih]
      congr 2
      funext k
      by_cases hk : k = x
      · subst hk; simp [h]
      · simp [hk]
    · rw [if_neg h, if_neg h, ih, List.cons_append]
      congr 3
      funext k
      by_cases hk : k = x
      · subst hk; simp
      · simp [hk]

theorem removeDuplicatesLoop_filter (p q : GoString → Bool) (b : List GoString) :
    removeDuplicatesLoop (fun k => p k || q k) [] b =
      removeDuplicatesLoop q [] (b.filter (fun x => !p x)) := by
  induction b generalizing q with
  | nil => simp [removeDuplicatesLoop]
  | cons x xs ih =>
    rw [removeDuplicatesLoop_cons]
    cases hp : p x
    · have hf : List.filter (fun x => !p x) (x :: xs) = x :: List.filter (fun x => !p x) xs := by
        simp [List.filter_cons, hp]
      rw [hf, removeDuplicatesLoop_cons]
      cases hq : q x
      · simp only [Bool.or_self, Bool.false_eq_true, if_false]
        rw [← ih]
        congr 2
        funext k
        by_cases hk : k = x
        · subst hk; simp
        · simp [hk]
      · simp only [Bool.or_true, if_true]
        exact ih q
    · have hf : List.filter (fun x => !p x) (x :: xs) = List.filter (fun x => !p x) xs := by
        simp [List.filter_cons, hp]
      rw [hf]
      simp only [Bool.true_or, if_true]
      exact ih q

theorem removeDuplicatesLoop_eq_filter (pre rest : List GoString) :
    removeDuplicatesLoop (fun k => decide (k ∈ pre)) [] rest =
      ((rest.enumFrom pre.length).filter
        (fun p => decide (p.2 ∉ (pre ++ rest).take p.1))).map Prod.snd := by
  induction rest generalizing pre with
  | nil => simp [removeDuplicatesLoop]
  | cons x xs ih =>
    have hseen : (fun k => if k = x then true else decide (k ∈ pre)) =
        (fun k => decide (k ∈ pre ++ [x])) := by
      funext k
      by_cases hk : k = x
      · subst hk; simp
      · simp [hk]
    have hpre : x ∈ pre → (fun k => decide (k ∈ pre)) = (fun k => decide (k ∈ pre ++ [x])) := by
      intro hx
      funext k
      by_cases hk : k = x
      · subst hk; simp [hx]
      · simp [hk]
    have htail := ih (pre ++ [x])
    simp only [List.length_append, List.length_singleton, List.append_assoc,
      List.singleton_append] at htail
    rw [removeDuplicatesLoop_cons, List.enumFrom_cons, List.filter_cons]
    have hhead : (pre ++ x :: xs).take pre.length = pre := List.take_left' rfl
    by_cases h : x ∈ pre
    · rw [if_pos (by simpa using h), hpre h, htail]
      simp [hhead, h]
    · rw [if_neg (by simpa using h), hseen, htail]
      simp [hhead, h]

theorem removeDuplicates_eq_filter (s : List GoString) :
    removeDuplicates s = keepFirstOccurrences s := by
  have h := removeDuplicatesLoop_eq_filter [] s
  simp only [List.not_mem_nil, decide_False, List.length_nil, List.nil_append] at h
  rw [removeDuplicates, h]
  rfl

/-! ## `strings.Replace`: lemmas -/

theorem isPrefixOf_cons_cons (o x : UInt8) (os xs : GoString) :
    (o :: os).isPrefixOf (x :: xs) = (o == x && os.isPrefixOf xs) := rfl

theorem isPrefixOf_nil_right (o : UInt8) (os : GoString) :
    (o :: os).isPrefixOf ([] : GoString) = false := rfl

theorem isPrefixOf_length {old s : GoString} (h : old.isPrefixOf s = true) :
    old.length ≤ s.length :=
  (List.isPrefixOf_iff_prefix.mp h).length_le

/-- Any two bounds that cover the string give the same result. -/
theorem replaceLoop_fuel (old new : GoString) (hold : old ≠ []) (fuel₁ fuel₂ : Nat) (n : Int)
    (s : GoString) (h₁ : s.length ≤ fuel₁) (h₂ : s.length ≤ fuel₂) :
    replaceLoop old new fuel₁ n s = replaceLoop old new fuel₂ n s := by
  induction fuel₁ generalizing fuel₂ n s with
  | zero =>
    have hs : s = [] := List.length_eq_zero.mp (Nat.le_zero.mp h₁)
    subst hs
    cases fuel₂ with
    | zero => rfl
    | succ f =>
      obtain ⟨o, os, rfl⟩ := List.exists_cons_of_ne_nil hold
      simp [replaceLoop, isPrefixOf_nil_right]
  | succ f ih =>
    cases fuel₂ with
    | zero =>
      have hs : s = [] := List.length_eq_zero.mp (Nat.le_zero.mp h₂)
      subst hs
      obtain ⟨o, os, rfl⟩ := List.exists_cons_of_ne_nil hold
      simp [replaceLoop, isPrefixOf_nil_right]
    | succ g =>
      simp only [replaceLoop]
      by_cases hn : n = 0
      · simp [hn]
      · simp only [hn, if_false]
        by_cases hp : old.isPrefixOf s = true
        · simp only [hp, if_true]
          have hlen : (s.drop old.length).length + 1 ≤ s.length := by
            have := isPrefixOf_length hp
            have h0 : 0 < old.length := List.length_pos.mpr hold
            rw [List.length_drop]; omega
          rw [ih g (n - 1) (s.drop old.length) (by omega) (by omega)]
        · simp only [hp, if_false]
          cases s with
          | nil => rfl
          | cons x xs =>
            simp only [List.length_cons] at h₁ h₂
            show x :: _ = x :: _
            rw [ih g n xs (by omega) (by omega)]

theorem Replace_eq (s old new : GoString) (n : Int) (h₁ : old ≠ new) (h₂ : old ≠ []) :
    Replace s old new n = replaceLoop old new s.length n s := by
  simp [Replace, h₁, h₂]

theorem replaceLoop_zero (old new s : GoString) :
    replaceLoop old new s.length 0 s = s := by
  cases s with
  | nil => rfl
  | cons x xs => simp [replaceLoop]

theorem replaceLoop_matched (old new s : GoString) (hold : old ≠ []) (n : Int) (hn : n ≠ 0)
    (hp : old.isPrefixOf s = true) :
    replaceLoop old new s.length n s =
      new ++ replaceLoop old new (s.drop old.length).length (n - 1) (s.drop old.length) := by
  cases s with
  | nil =>
    obtain ⟨o, os, rfl⟩ := List.exists_cons_of_ne_nil hold
    simp [isPrefixOf_nil_right] at hp
  | cons x xs =>
    have hlen : ((x :: xs).drop old.length).length ≤ xs.length := by
      have h0 : 0 < old.length := List.length_pos.mpr hold
      rw [List.length_drop, List.length_cons]; omega
    rw [List.length_cons]
    simp only [replaceLoop, hn, hp, if_true, if_false]
    rw [replaceLoop_fuel old new hold _ _ _ _ hlen (Nat.le_refl _)]

theorem replaceLoop_cons (old new : GoString) (x : UInt8) (xs : GoString) (n : Int)
    (hn : n ≠ 0) (hp : old.isPrefixOf (x :: xs) = false) :
    replaceLoop old new (x :: xs).length n (x :: xs) =
      x :: replaceLoop old new xs.length n xs := by
  rw [List.length_cons]
  simp [replaceLoop, hn, hp]

/-- A string without the first byte of `old` has no instance of `old`. -/
theorem replaceLoop_absent (o : UInt8) (os new s : GoString) (n : Int) (ho : o ∉ s) :
    replaceLoop (o :: os) new s.length n s = s := by
  induction s with
  | nil => rfl
  | cons x xs ih =>
    by_cases hn : n = 0
    · subst hn; exact replaceLoop_zero _ _ _
    · have hx : o ≠ x := fun h => ho (h ▸ List.mem_cons_self _ _)
      rw [replaceLoop_cons _ _ _ _ _ hn (by simp [isPrefixOf_cons_cons, hx]),
        ih (fun h => ho (List.mem_cons_of_mem _ h))]

/-- A stretch without the first byte of `old` is copied. -/
theorem replaceLoop_skip (o : UInt8) (os new g t : GoString) (n : Int) (hn : n ≠ 0)
    (ho : o ∉ g) :
    replaceLoop (o :: os) new (g ++ t).length n (g ++ t) =
      g ++ replaceLoop (o :: os) new t.length n t := by
  induction g with
  | nil => rfl
  | cons x xs ih =>
    have hx : o ≠ x := fun h => ho (h ▸ List.mem_cons_self _ _)
    rw [List.cons_append, replaceLoop_cons _ _ _ _ _ hn (by simp [isPrefixOf_cons_cons, hx]),
      ih (fun h => ho (List.mem_cons_of_mem _ h)), List.cons_append]

/-- An instance of `old` at the front is replaced. -/
theorem replaceLoop_here (old new t : GoString) (hold : old ≠ []) (n : Int) (hn : n ≠ 0) :
    replaceLoop old new (old ++ t).length n (old ++ t) =
      new ++ replaceLoop old new t.length (n - 1) t := by
  rw [replaceLoop_matched old new _ hold n hn
    (List.isPrefixOf_iff_prefix.mpr (List.prefix_append _ _))]
  simp

/-- Deleting instances leaves a sublist. -/
theorem replaceLoop_sublist (old s : GoString) (fuel : Nat) (n : Int) :
    (replaceLoop old [] fuel n s).Sublist s := by
  induction fuel generalizing n s with
  | zero => exact List.Sublist.refl _
  | succ f ih =>
    simp only [replaceLoop]
    by_cases hn : n = 0
    · simp [hn]
    · simp only [hn, if_false]
      by_cases hp : old.isPrefixOf s = true
      · simp only [hp, if_true, List.nil_append]
        exact (ih _ _).trans (List.drop_sublist _ _)
      · simp only [hp, if_false]
        cases s with
        | nil => exact List.Sublist.refl _
        | cons x xs => exact (ih _ _).cons₂ x

/-! ## Normalisation: lemmas -/

theorem star_eq : star = 0x2A :: [0x2E] := rfl

theorem junk_eq : junk = 0xE1 :: 0x85 :: 0x9A :: (List.replicate 28 junkUnit).flatten := by
  decide

theorem junk_length : junk.length = 87 := by decide

theorem junk_ne_nil : junk ≠ [] := by decide

theorem star_ne_nil : star ≠ [] := by decide

/-- Without the byte `*` the removal of `"*."` changes nothing. -/
theorem Replace_star_absent (s : GoString) (n : Int) (h : 0x2A ∉ s) :
    Replace s star [] n = s := by
  rw [Replace_eq _ _ _ _ star_ne_nil star_ne_nil, star_eq]
  exact replaceLoop_absent _ _ _ _ _ h

/-- Without the byte `E1` the removal of the junk sequence changes nothing. -/
theorem Replace_junk_absent (s : GoString) (n : Int) (h : 0xE1 ∉ s) :
    Replace s junk [] n = s := by
  rw [Replace_eq _ _ _ _ junk_ne_nil junk_ne_nil, junk_eq]
  exact replaceLoop_absent _ _ _ _ _ h

/-- Removing every `"*."` from segments joined by `"*."`. -/
theorem Replace_star_intercalate (g : GoString) (segs : List GoString) (n : Int) (hn : n < 0)
    (hg : 0x2A ∉ g) (h : ∀ t ∈ segs, (0x2A : UInt8) ∉ t) :
    Replace (star.intercalate (g :: segs)) star [] n = (g :: segs).flatten := by
  rw [Replace_eq _ _ _ _ star_ne_nil star_ne_nil]
  induction segs generalizing g n with
  | nil =>
    simp only [List.intercalate, List.intersperse, List.flatten, List.append_nil]
    rw [star_eq]
    exact replaceLoop_absent _ _ _ _ _ hg
  | cons t ts ih =>
    have hcons : star.intercalate (g :: t :: ts) = g ++ (star ++ star.intercalate (t :: ts)) := by
      simp [List.intercalate, List.intersperse]
    rw [hcons]
    have hskip := replaceLoop_skip 0x2A [0x2E] [] g (star ++ star.intercalate (t :: ts)) n
      (by omega) hg
    rw [← star_eq] at hskip
    rw [hskip, replaceLoop_here _ _ _ star_ne_nil n (by omega),
      ih t (n - 1) (by omega) (h t (List.mem_cons_self _ _))
        (fun u hu => h u (List.mem_cons_of_mem _ hu))]
    simp

/-- The count-1 removal on segments joined by `"*."` joins the first two. -/
theorem Replace_star_once (g t : GoString) (segs : List GoString) (hg : 0x2A ∉ g) :
    Replace (star.intercalate (g :: t :: segs)) star [] 1 =
      star.intercalate ((g ++ t) :: segs) := by
  rw [Replace_eq _ _ _ _ star_ne_nil star_ne_nil]
  have hcons : star.intercalate (g :: t :: segs) =
      g ++ (star ++ star.intercalate (t :: segs)) := by
    simp [List.intercalate, List.intersperse]
  rw [hcons]
  have hskip := replaceLoop_skip 0x2A [0x2E] [] g (star ++ star.intercalate (t :: segs)) 1
    (by omega) hg
  rw [← star_eq] at hskip
  rw [hskip, replaceLoop_here _ _ _ star_ne_nil 1 (by omega)]
  simp only [sub_self, replaceLoop_zero, List.nil_append]
  cases segs <;> simp [List.intercalate, List.intersperse]

theorem not_mem_intercalate (b : UInt8) (sep : GoString) (segs : List GoString)
    (hsep : b ∉ sep) (h : ∀ t ∈ segs, b ∉ t) : b ∉ sep.intercalate segs := by
  induction segs with
  | nil => simp [List.intercalate, List.intersperse]
  | cons g ts ih =>
    cases ts with
    | nil =>
      simpa [List.intercalate, List.intersperse] using h g (List.mem_cons_self _ _)
    | cons t ts =>
      have hcons : sep.intercalate (g :: t :: ts) = g ++ (sep ++ sep.intercalate (t :: ts)) := by
        simp [List.intercalate, List.intersperse]
      rw [hcons]
      simp only [List.mem_append, not_or]
      exact ⟨h g (List.mem_cons_self _ _), hsep, ih (fun u hu => h u (List.mem_cons_of_mem _ hu))⟩

/-! ## The junk sequence after normalisation: lemmas -/

theorem units_succ (k : Nat) :
    (List.replicate (k + 1) junkUnit).flatten =
      0xE1 :: 0x85 :: 0x9A :: (List.replicate k junkUnit).flatten := by
  rw [List.replicate_succ, List.flatten_cons]; rfl

theorem units_add (a b : Nat) :
    (List.replicate (a + b) junkUnit).flatten =
      (List.replicate a junkUnit).flatten ++ (List.replicate b junkUnit).flatten := by
  rw [List.replicate_add, List.flatten_append]

theorem junk_units : junk = (List.replicate 29 junkUnit).flatten := rfl

theorem leadBytesApart_cons {x : UInt8} {xs : GoString} (h : leadBytesApart (x :: xs) = true) :
    (x = 0xE1 → (0xE1 : UInt8) ∉ xs.take 2) ∧ leadBytesApart xs = true := by
  simp only [leadBytesApart, Bool.and_eq_true, Bool.or_eq_true, bne_iff_ne, ne_eq,
    Bool.not_eq_true', List.contains_eq_any_beq, List.any_eq_false, beq_iff_eq] at h
  refine ⟨fun hx hmem => ?_, h.2⟩
  rcases h.1 with h1 | h1
  · exact h1 hx
  · exact h1 _ hmem rfl

theorem leadBytesApart_append {a b : GoString} (h : leadBytesApart (a ++ b) = true) :
    leadBytesApart b = true := by
  induction a with
  | nil => exact h
  | cons x xs ih => exact ih (leadBytesApart_cons h).2

theorem junkLoop_cons (x : UInt8) (xs : GoString) (n : Int) (hn : n < 0) (hx : x ≠ 0xE1) :
    replaceLoop junk [] (x :: xs).length n (x :: xs) =
      x :: replaceLoop junk [] xs.length n xs := by
  apply replaceLoop_cons _ _ _ _ _ (by omega)
  rw [junk_eq, isPrefixOf_cons_cons]
  simp [Ne.symm hx]

/-- If the output of the junk removal starts with `k` units, the input starts with
some junk sequences followed by `k` units. -/
theorem junkLoop_units (N : Nat) : ∀ (s : GoString), s.length ≤ N → leadBytesApart s = true →
    ∀ (n : Int), n < 0 → ∀ (k : Nat),
    (List.replicate k junkUnit).flatten <+: replaceLoop junk [] s.length n s →
    ∃ m, (List.replicate (29 * m + k) junkUnit).flatten <+: s := by
  induction N with
  | zero =>
    intro s hs _ n _ k hk
    have hnil : s = [] := List.length_eq_zero.mp (Nat.le_zero.mp hs)
    subst hnil
    refine ⟨0, ?_⟩
    simpa [replaceLoop] using hk
  | succ N ih =>
    intro s hs hH n hn k hk
    cases k with
    | zero => exact ⟨0, by simp⟩
    | succ k =>
      by_cases hp : junk.isPrefixOf s = true
      · obtain ⟨t, rfl⟩ := List.isPrefixOf_iff_prefix.mp hp
        rw [replaceLoop_here _ _ _ junk_ne_nil n (by omega), List.nil_append] at hk
        have hlen : t.length ≤ N := by
          rw [List.length_append, junk_length] at hs; omega
        obtain ⟨m, hm⟩ := ih t hlen (leadBytesApart_append hH) (n - 1) (by omega) (k + 1) hk
        refine ⟨m + 1, ?_⟩
        have : 29 * (m + 1) + (k + 1) = 29 + (29 * m + (k + 1)) := by ring
        rw [this, units_add, ← junk_units]
        exact (List.prefix_append_right_inj junk).mpr hm
      · have hp' : junk.isPrefixOf s = false := eq_false_of_ne_true hp
        rw [units_succ] at hk
        cases s with
        | nil => simp [replaceLoop] at hk
        | cons x xs =>
          rw [replaceLoop_cons _ _ _ _ _ (by omega) hp', List.cons_prefix_cons] at hk
          obtain ⟨hx, hk⟩ := hk
          have hH1 := leadBytesApart_cons hH
          have hfar := hH1.1 hx.symm
          cases xs with
          | nil => simp [replaceLoop] at hk
          | cons y ys =>
            have hy : y ≠ 0xE1 := fun h => hfar (by simp [h])
            rw [junkLoop_cons _ _ _ hn hy, List.cons_prefix_cons] at hk
            obtain ⟨hy85, hk⟩ := hk
            cases ys with
            | nil => simp [replaceLoop] at hk
            | cons z zs =>
              have hz : z ≠ 0xE1 := fun h => hfar (by simp [h])
              rw [junkLoop_cons _ _ _ hn hz, List.cons_prefix_cons] at hk
              obtain ⟨hz9A, hk⟩ := hk
              have hHz : leadBytesApart zs = true :=
                (leadBytesApart_cons (leadBytesApart_cons hH1.2).2).2
              have hlen : zs.length ≤ N := by
                simp only [List.length_cons] at hs; omega
              obtain ⟨m, hm⟩ := ih zs hlen hHz n hn k hk
              refine ⟨m, ?_⟩
              have : 29 * m + (k + 1) = (29 * m + k) + 1 := by ring
              rw [this, units_succ, ← hx, ← hy85, ← hz9A]
              exact List.cons_prefix_cons.mpr ⟨rfl, List.cons_prefix_cons.mpr
                ⟨rfl, List.cons_prefix_cons.mpr ⟨rfl, hm⟩⟩⟩

/-- The output of the junk removal does not start with the junk sequence. -/
theorem junkLoop_not_leading (N : Nat) : ∀ (s : GoString), s.length ≤ N →
    leadBytesApart s = true → ∀ (n : Int), n < 0 →
    ¬ junk <+: replaceLoop junk [] s.length n s := by
  induction N with
  | zero =>
    intro s hs _ n _ hk
    have hnil : s = [] := List.length_eq_zero.mp (Nat.le_zero.mp hs)
    subst hnil
    have := hk.length_le
    rw [junk_length] at this
    simp [replaceLoop] at this
  | succ N ih =>
    intro s hs hH n hn hk
    obtain ⟨m, hm⟩ := junkLoop_units (N + 1) s hs hH n hn 29 hk
    have h29 : 29 * m + 29 = 29 + 29 * m := by ring
    rw [h29, units_add, ← junk_units] at hm
    obtain ⟨t, rfl⟩ := (List.prefix_append _ _).trans hm
    rw [replaceLoop_here _ _ _ junk_ne_nil n (by omega), List.nil_append] at hk
    have hlen : t.length ≤ N := by
      rw [List.length_append, junk_length] at hs; omega
    exact ih t hlen (leadBytesApart_append hH) (n - 1) (by omega) hk

/-- The output of the junk removal does not contain the junk sequence. -/
theorem junkLoop_junk_free (N : Nat) : ∀ (s : GoString), s.length ≤ N →
    leadBytesApart s = true → ∀ (n : Int), n < 0 →
    ¬ junk <:+: replaceLoop junk [] s.length n s := by
  induction N with
  | zero =>
    intro s hs _ n _ hk
    have hnil : s = [] := List.length_eq_zero.mp (Nat.le_zero.mp hs)
    subst hnil
    have := hk.length_le
    rw [junk_length] at this
    simp [replaceLoop] at this
  | succ N ih =>
    intro s hs hH n hn hk
    by_cases hp : junk.isPrefixOf s = true
    · obtain ⟨t, rfl⟩ := List.isPrefixOf_iff_prefix.mp hp
      rw [replaceLoop_here _ _ _ junk_ne_nil n (by omega), List.nil_append] at hk
      have hlen : t.length ≤ N := by
        rw [List.length_append, junk_length] at hs; omega
      exact ih t hlen (leadBytesApart_append hH) (n - 1) (by omega) hk
    · have hp' : junk.isPrefixOf s = false := eq_false_of_ne_true hp
      cases s with
      | nil =>
        have := hk.length_le
        rw [junk_length] at this
        simp [replaceLoop] at this
      | cons x xs =>
        have hpre := junkLoop_not_leading (N + 1) (x :: xs) hs hH n hn
        rw [replaceLoop_cons _ _ _ _ _ (by omega) hp'] at hk hpre
        rcases List.infix_cons_iff.mp hk with h | h
        · exact hpre h
        · have hlen : xs.length ≤ N := by
            simp only [List.length_cons] at hs; omega
          exact ih xs hlen (leadBytesApart_cons hH).2 n hn h

/-! ## Extraction, writer and run: lemmas -/

theorem crtSubdomainsLoop_eq (acc : List GoString) (crtData : List Record) :
    crtSubdomainsLoop acc crtData = acc ++ (crtData.filterMap nameValueOf).map normalise := by
  induction crtData generalizing acc with
  | nil => simp [crtSubdomainsLoop]
  | cons entry rest ih =>
    cases h : nameValueOf entry with
    | none => simp [crtSubdomainsLoop, h, ih, List.filterMap_cons]
    | some v => simp [crtSubdomainsLoop, h, ih, List.filterMap_cons]

theorem writeLoop_eq (file : GoString) (l : List GoString) :
    writeLoop file l = file ++ (l.map (fun e => e ++ [newline])).flatten := by
  induction l generalizing file with
  | nil => simp [writeLoop]
  | cons e rest ih => simp [writeLoop, ih]

theorem splitLinesFrom_line (cur e rest : GoString) (h : newline ∉ e) :
    splitLinesFrom cur (e ++ newline :: rest) = (cur ++ e) :: splitLinesFrom [] rest := by
  induction e generalizing cur with
  | nil => simp [splitLinesFrom]
  | cons b bs ih =>
    have hb : b ≠ newline := fun hb => h (hb ▸ List.mem_cons_self _ _)
    rw [List.cons_append, splitLinesFrom, if_neg hb,
      ih _ (fun hm => h (List.mem_cons_of_mem _ hm))]
    simp

theorem splitLines_fileText (l : List GoString) (h : ∀ e ∈ l, newline ∉ e) :
    splitLines (fileText l) = l := by
  rw [fileText, writeLoop_eq, List.nil_append, splitLines]
  induction l with
  | nil => simp [splitLinesFrom]
  | cons e rest ih =>
    simp only [List.map_cons, List.flatten_cons, List.append_assoc, List.singleton_append]
    rw [splitLinesFrom_line _ _ _ (h e (List.mem_cons_self _ _)),
      ih (fun x hx => h x (List.mem_cons_of_mem _ hx))]
    simp

theorem requestsMade_httpGet (url : GoString) (events : List Event) :
    requestsMade (.httpGet url :: events) = requestsMade events + 1 := by
  simp [requestsMade]

theorem requestsMade_logPrintf (msg : GoString) (events : List Event) :
    requestsMade (.logPrintf msg :: events) = requestsMade events := by
  simp [requestsMade]

theorem requestsMade_sleep (events : List Event) :
    requestsMade (.sleep :: events) = requestsMade events := by
  simp [requestsMade]

theorem jldcLoop_first_success (w : World) (url jldcBody : GoString) (i : Nat) :
    ∀ left retry, i < left → (∀ k < i, (w.jldc url (retry + k)).failed = true) →
      w.jldc url (retry + i) = .body jldcBody →
      (jldcLoop w url left retry).2 = FindAllString jldcRegex jldcBody ∧
      requestsMade (jldcLoop w url left retry).1 = i + 1 := by
  induction i with
  | zero =>
    intro left retry hleft _ hok
    obtain ⟨l, rfl⟩ : ∃ l, left = l + 1 := ⟨left - 1, by omega⟩
    rw [Nat.add_zero] at hok
    simp [jldcLoop, hok, requestsMade]
  | succ i ih =>
    intro left retry hleft hfail hok
    obtain ⟨l, rfl⟩ : ∃ l, left = l + 1 := ⟨left - 1, by omega⟩
    have h0 := hfail 0 (by omega)
    rw [Nat.add_zero] at h0
    have hrec := ih l (retry + 1) (by omega)
      (fun k hk => by have := hfail (k + 1) (by omega); rwa [Nat.add_assoc, Nat.add_comm 1 k])
      (by rwa [Nat.add_assoc, Nat.add_comm 1 i])
    cases hf : w.jldc url retry with
    | requestError err =>
      simp only [jldcLoop, hf]
      exact ⟨hrec.1, by
        rw [requestsMade_httpGet, requestsMade_logPrintf, requestsMade_sleep, hrec.2]⟩
    | readError err =>
      simp only [jldcLoop, hf]
      exact ⟨hrec.1, by rw [requestsMade_httpGet, requestsMade_logPrintf, hrec.2]⟩
    | body b => rw [hf] at h0; simp [Fetch.failed] at h0

theorem jldcLoop_requests_le (w : World) (url : GoString) (left : Nat) :
    ∀ retry, requestsMade (jldcLoop w url left retry).1 ≤ left := by
  induction left with
  | zero => intro retry; simp [jldcLoop, requestsMade]
  | succ l ih =>
    intro retry
    have hrec := ih (retry + 1)
    cases hf : w.jldc url retry with
    | requestError err =>
      simp only [jldcLoop, hf]
      rw [requestsMade_httpGet, requestsMade_logPrintf, requestsMade_sleep]; omega
    | readError err =>
      simp only [jldcLoop, hf]
      rw [requestsMade_httpGet, requestsMade_logPrintf]; omega
    | body b => simp [jldcLoop, hf, requestsMade]

/-- An attempt that leaves `crtData` as it is: an error of the request or of the
reading, or a body that is not JSON text. -/
theorem crtLoop_untouched_step (w : World) (url : GoString) (left retry : Nat)
    (crtData : CrtData)
    (h : ∃ err, w.crt url retry = .requestError err ∨ w.crt url retry = .readError err ∨
      w.crt url retry = .invalidJSON err) :
    (crtLoop w url (left + 1) retry crtData).2 = (crtLoop w url left (retry + 1) crtData).2 ∧
    requestsMade (crtLoop w url (left + 1) retry crtData).1 =
      requestsMade (crtLoop w url left (retry + 1) crtData).1 + 1 := by
  obtain ⟨err, h | h | h⟩ := h
  · simp only [crtLoop, h]
    exact ⟨trivial, by rw [requestsMade_httpGet, requestsMade_logPrintf, requestsMade_sleep]⟩
  · simp only [crtLoop, h]
    exact ⟨trivial, by rw [requestsMade_httpGet, requestsMade_logPrintf]⟩
  · simp only [crtLoop, h]
    exact ⟨trivial, by rw [requestsMade_httpGet, requestsMade_logPrintf]⟩

/-- When the attempts before the first success leave `crtData` as it is, the
result is what `json.Unmarshal` makes of the body of that attempt alone. -/
theorem crtLoop_first_success_untouched (w : World) (url : GoString) (doc : JSONValue)
    (stored : CrtData) (i : Nat) :
    ∀ left retry, i < left →
      (∀ k < i, ∃ err, w.crt url (retry + k) = .requestError err ∨
        w.crt url (retry + k) = .readError err ∨ w.crt url (retry + k) = .invalidJSON err) →
      w.crt url (retry + i) = .document doc → unmarshal doc ⟨[], []⟩ = (stored, none) →
      (crtLoop w url left retry ⟨[], []⟩).2 = stored ∧
      requestsMade (crtLoop w url left retry ⟨[], []⟩).1 = i + 1 := by
  induction i with
  | zero =>
    intro left retry hleft _ hok hdoc
    obtain ⟨l, rfl⟩ : ∃ l, left = l + 1 := ⟨left - 1, by omega⟩
    rw [Nat.add_zero] at hok
    simp [crtLoop, hok, hdoc, requestsMade]
  | succ i ih =>
    intro left retry hleft hfail hok hdoc
    obtain ⟨l, rfl⟩ : ∃ l, left = l + 1 := ⟨left - 1, by omega⟩
    have h0 := hfail 0 (by omega)
    rw [Nat.add_zero] at h0
    have hrec := ih l (retry + 1) (by omega)
      (fun k hk => by have := hfail (k + 1) (by omega); rwa [Nat.add_assoc, Nat.add_comm 1 k])
      (by rwa [Nat.add_assoc, Nat.add_comm 1 i]) hdoc
    have hstep := crtLoop_untouched_step w url l retry ⟨[], []⟩ h0
    exact ⟨by rw [hstep.1, hrec.1], by rw [hstep.2, hrec.2]⟩

theorem crtLoop_requests_le (w : World) (url : GoString) (left : Nat) :
    ∀ retry crtData, requestsMade (crtLoop w url left retry crtData).1 ≤ left := by
  induction left with
  | zero => intro retry crtData; simp [crtLoop, requestsMade]
  | succ l ih =>
    intro retry crtData
    have hrec := fun d => ih (retry + 1) d
    cases hf : w.crt url retry with
    | requestError err =>
      simp only [crtLoop, hf]
      rw [requestsMade_httpGet, requestsMade_logPrintf, requestsMade_sleep]
      have := hrec crtData; omega
    | readError err =>
      simp only [crtLoop, hf]
      rw [requestsMade_httpGet, requestsMade_logPrintf]
      have := hrec crtData; omega
    | invalidJSON err =>
      simp only [crtLoop, hf]
      rw [requestsMade_httpGet, requestsMade_logPrintf]
      have := hrec crtData; omega
    | document doc =>
      simp only [crtLoop, hf]
      rcases hu : unmarshal doc crtData with ⟨d, _ | e⟩
      · simp [requestsMade]
      · simp only []
        rw [requestsMade_httpGet, requestsMade_logPrintf]
        have := hrec d; omega

theorem crtLoop_nothing_stored (w : World) (url : GoString) (left : Nat) :
    ∀ retry crtData, (∀ k < left, ∃ err, w.crt url (retry + k) = .requestError err ∨
        w.crt url (retry + k) = .readError err ∨
        w.crt url (retry + k) = .invalidJSON err) →
      (crtLoop w url left retry crtData).2 = crtData := by
  induction left with
  | zero => intro retry crtData _; rfl
  | succ l ih =>
    intro retry crtData h
    have hrec := ih (retry + 1) crtData (fun k hk => by
      have := h (k + 1) (by omega); rwa [Nat.add_assoc, Nat.add_comm 1 k])
    have h0 := h 0 (by omega)
    rw [Nat.add_zero] at h0
    rw [(crtLoop_untouched_step w url l retry crtData h0).1, hrec]

theorem jldcLoop_all_failed (w : World) (url : GoString) (left : Nat) :
    ∀ retry, (∀ k < left, (w.jldc url (retry + k)).failed = true) →
      (jldcLoop w url left retry).2 = [] := by
  induction left with
  | zero => intro retry _; rfl
  | succ l ih =>
    intro retry h
    have hrec := ih (retry + 1) (fun k hk => by
      have := h (k + 1) (by omega); rwa [Nat.add_assoc, Nat.add_comm 1 k])
    have h0 := h 0 (by omega)
    rw [Nat.add_zero] at h0
    cases hf : w.jldc url retry with
    | requestError err => simp only [jldcLoop, hf]; exact hrec
    | readError err => simp only [jldcLoop, hf]; exact hrec
    | body b => rw [hf] at h0; simp [Fetch.failed] at h0

/-- The file `main` writes when the directory and the file can be created. -/
theorem main_file (w : World) (domain outputFile : GoString) (hd : domain ≠ [])
    (ho : outputFile ≠ []) (hmk : w.mkdirAll (w.filepathDir outputFile) = none)
    (hcr : w.create outputFile = none) :
    (main w domain outputFile).exit = .returned ∧
    (main w domain outputFile).file =
      some (fileText (allSubdomainsOf (jldcLoop w (jldcURLOf domain) 3 0).2
        (crtLoop w (crtURLOf domain) 3 0 ⟨[], []⟩).2.elems)) := by
  simp [main, hd, ho, hmk, hcr]

/-- When every attempt fails and no `json.Unmarshal` has decoded anything (each
attempt on crt.sh ends in an error of the request or of the reading, or in a body
that is not JSON text), the output file is created empty. -/
theorem main_all_failed_nothing_stored (w : World) (domain outputFile : GoString)
    (hd : domain ≠ []) (ho : outputFile ≠ [])
    (hmk : w.mkdirAll (w.filepathDir outputFile) = none) (hcr : w.create outputFile = none)
    (hA : ∀ k < 3, (w.jldc (jldcURLOf domain) k).failed = true)
    (hB : ∀ k < 3, ∃ err, w.crt (crtURLOf domain) k = .requestError err ∨
        w.crt (crtURLOf domain) k = .readError err ∨
        w.crt (crtURLOf domain) k = .invalidJSON err) :
    (main w domain outputFile).exit = .returned ∧ (main w domain outputFile).file = some [] := by
  have h := main_file w domain outputFile hd ho hmk hcr
  rw [jldcLoop_all_failed w _ 3 0 (fun k hk => by rw [Nat.zero_add]; exact hA k hk),
    crtLoop_nothing_stored w _ 3 0 ⟨[], []⟩ (fun k hk => by rw [Nat.zero_add]; exact hB k hk)] at h
  exact h

/-! ## The junk sequence and the wildcard markers: lemmas -/

theorem isContinuation_ne {y : UInt8} (h : isContinuation y = true) :
    y ≠ 0xE1 ∧ y ≠ 0x2A := by
  constructor
  · intro hy; subst hy; exact absurd h (by decide)
  · intro hy; subst hy; exact absurd h (by decide)

theorem twoContinuations_iff (l : GoString) :
    twoContinuations l = true ↔
      ∃ y z rest, l = y :: z :: rest ∧ isContinuation y = true ∧ isContinuation z = true := by
  constructor
  · intro h
    cases l with
    | nil => exact absurd h (by simp [twoContinuations])
    | cons y ys =>
      cases ys with
      | nil => exact absurd h (by simp [twoContinuations])
      | cons z rest =>
        rw [twoContinuations, Bool.and_eq_true] at h
        exact ⟨y, z, rest, rfl, h.1, h.2⟩
  · rintro ⟨y, z, rest, rfl, hy, hz⟩
    rw [twoContinuations, Bool.and_eq_true]
    exact ⟨hy, hz⟩

theorem leadBytesFollowed_cons {x : UInt8} {xs : GoString}
    (h : leadBytesFollowed (x :: xs) = true) :
    (x = 0xE1 → ∃ y z rest, xs = y :: z :: rest ∧ isContinuation y = true ∧
      isContinuation z = true) ∧ leadBytesFollowed xs = true := by
  rw [leadBytesFollowed, Bool.and_eq_true, Bool.or_eq_true] at h
  refine ⟨fun hx => ?_, h.2⟩
  rcases h.1 with h1 | h1
  · simp [hx] at h1
  · exact (twoContinuations_iff xs).mp h1

theorem leadBytesFollowed_append {a b : GoString} (h : leadBytesFollowed (a ++ b) = true) :
    leadBytesFollowed b = true := by
  induction a with
  | nil => exact h
  | cons x xs ih => exact ih (leadBytesFollowed_cons h).2

theorem leadBytesFollowed_intro (x : UInt8) (l : GoString)
    (h₁ : x = 0xE1 → ∃ y z rest, l = y :: z :: rest ∧ isContinuation y = true ∧
      isContinuation z = true)
    (h₂ : leadBytesFollowed l = true) : leadBytesFollowed (x :: l) = true := by
  rw [leadBytesFollowed, Bool.and_eq_true, Bool.or_eq_true]
  refine ⟨?_, h₂⟩
  by_cases hx : x = 0xE1
  · exact Or.inr ((twoContinuations_iff l).mpr (h₁ hx))
  · exact Or.inl (by simpa using hx)

theorem leadBytesApart_of_followed (s : GoString) (h : leadBytesFollowed s = true) :
    leadBytesApart s = true := by
  induction s with
  | nil => rfl
  | cons x xs ih =>
    have hc := leadBytesFollowed_cons h
    rw [leadBytesApart, Bool.and_eq_true, Bool.or_eq_true]
    refine ⟨?_, ih hc.2⟩
    by_cases hx : x = 0xE1
    · obtain ⟨y, z, rest, rfl, hy, hz⟩ := hc.1 hx
      right
      have hy' := (isContinuation_ne hy).1
      have hz' := (isContinuation_ne hz).1
      simp [List.take, Ne.symm hy', Ne.symm hz']
    · left
      simpa using hx

/-- Removing instances of a string that starts with a byte that is not a
continuation byte keeps every `E1` followed by two continuation bytes. -/
theorem replaceLoop_leadBytesFollowed (o : UInt8) (os : GoString)
    (ho : isContinuation o = false) (N : Nat) :
    ∀ (s : GoString) (n : Int), s.length ≤ N → leadBytesFollowed s = true →
      leadBytesFollowed (replaceLoop (o :: os) [] s.length n s) = true := by
  induction N with
  | zero =>
    intro s n hs h
    have hnil : s = [] := List.length_eq_zero.mp (Nat.le_zero.mp hs)
    subst hnil
    rfl
  | succ N ih =>
    intro s n hs h
    by_cases hn : n = 0
    · subst hn; rw [replaceLoop_zero]; exact h
    by_cases hp : (o :: os).isPrefixOf s = true
    · obtain ⟨t, rfl⟩ := List.isPrefixOf_iff_prefix.mp hp
      rw [replaceLoop_here _ _ _ (List.cons_ne_nil _ _) n hn, List.nil_append]
      have hlen : t.length ≤ N := by
        simp only [List.length_append, List.length_cons] at hs; omega
      exact ih t (n - 1) hlen (leadBytesFollowed_append h)
    · have hp' : (o :: os).isPrefixOf s = false := eq_false_of_ne_true hp
      cases s with
      | nil => rfl
      | cons x xs =>
        rw [replaceLoop_cons _ _ _ _ _ hn hp']
        have hc := leadBytesFollowed_cons h
        have hlen : xs.length ≤ N := by
          simp only [List.length_cons] at hs; omega
        refine leadBytesFollowed_intro _ _ (fun hx => ?_) (ih xs n hlen hc.2)
        obtain ⟨y, z, rest, rfl, hy, hz⟩ := hc.1 hx
        have hoy : o ≠ y := fun e => by rw [e, hy] at ho; exact absurd ho (by decide)
        have hoz : o ≠ z := fun e => by rw [e, hz] at ho; exact absurd ho (by decide)
        rw [replaceLoop_cons _ _ _ _ _ hn (by simp [isPrefixOf_cons_cons, hoy]),
          replaceLoop_cons _ _ _ _ _ hn (by simp [isPrefixOf_cons_cons, hoz])]
        exact ⟨y, z, _, rfl, hy, hz⟩

theorem starsClearOf9A_cons (p : Bool) (x : UInt8) (xs : GoString) :
    starsClearOf9A p (x :: xs) = (!(p && x == 0x2A) && starsClearOf9A (x == 0x9A) xs) := rfl

theorem starsClearOf9A_weaken (p : Bool) (s : GoString) (h : starsClearOf9A true s = true) :
    starsClearOf9A p s = true := by
  cases s with
  | nil => rfl
  | cons x xs =>
    rw [starsClearOf9A_cons, Bool.and_eq_true] at h ⊢
    refine ⟨?_, h.2⟩
    cases p
    · rfl
    · exact h.1

theorem starsClearOf9A_append_cons (p : Bool) (a : GoString) (x : UInt8) (t : GoString)
    (h : starsClearOf9A p (a ++ x :: t) = true) : starsClearOf9A (x == 0x9A) t = true := by
  induction a generalizing p with
  | nil =>
    rw [List.nil_append, starsClearOf9A_cons, Bool.and_eq_true] at h
    exact h.2
  | cons y ys ih =>
    rw [List.cons_append, starsClearOf9A_cons, Bool.and_eq_true] at h
    exact ih _ h.2

theorem junk_last : junk = ((List.replicate 28 junkUnit).flatten ++ [0xE1, 0x85]) ++ [0x9A] := by
  decide

/-- The removal of `"*."` keeps every `*` clear of a `9A` before it. -/
theorem starLoop_starsClearOf9A (N : Nat) :
    ∀ (s : GoString) (n : Int) (p : Bool), s.length ≤ N → starsClearOf9A p s = true →
      starsClearOf9A p (replaceLoop star [] s.length n s) = true := by
  induction N with
  | zero =>
    intro s n p hs h
    have hnil : s = [] := List.length_eq_zero.mp (Nat.le_zero.mp hs)
    subst hnil
    rfl
  | succ N ih =>
    intro s n p hs h
    by_cases hn : n = 0
    · subst hn; rw [replaceLoop_zero]; exact h
    by_cases hp : star.isPrefixOf s = true
    · obtain ⟨t, rfl⟩ := List.isPrefixOf_iff_prefix.mp hp
      rw [replaceLoop_here _ _ _ star_ne_nil n hn, List.nil_append]
      have hlen : t.length ≤ N := by
        simp only [List.length_append, star_eq, List.length_cons] at hs; omega
      have h1 : p = false ∧ starsClearOf9A false t = true := by
        rw [star_eq, List.cons_append, List.cons_append, List.nil_append,
          starsClearOf9A_cons, starsClearOf9A_cons, Bool.and_eq_true, Bool.and_eq_true] at h
        refine ⟨?_, h.2.2⟩
        cases p
        · rfl
        · exact absurd h.1 (by decide)
      rw [h1.1]
      exact ih t (n - 1) false hlen h1.2
    · have hp' : star.isPrefixOf s = false := eq_false_of_ne_true hp
      cases s with
      | nil => rfl
      | cons x xs =>
        rw [replaceLoop_cons _ _ _ _ _ hn hp']
        rw [starsClearOf9A_cons, Bool.and_eq_true] at h ⊢
        have hlen : xs.length ≤ N := by
          simp only [List.length_cons] at hs; omega
        exact ⟨h.1, ih xs n _ hlen h.2⟩

/-- The removal of the junk sequence keeps every `*` clear of a `9A` before it. -/
theorem junkLoop_starsClearOf9A (N : Nat) :
    ∀ (s : GoString) (n : Int) (p : Bool), s.length ≤ N → starsClearOf9A p s = true →
      starsClearOf9A p (replaceLoop junk [] s.length n s) = true := by
  induction N with
  | zero =>
    intro s n p hs h
    have hnil : s = [] := List.length_eq_zero.mp (Nat.le_zero.mp hs)
    subst hnil
    rfl
  | succ N ih =>
    intro s n p hs h
    by_cases hn : n = 0
    · subst hn; rw [replaceLoop_zero]; exact h
    by_cases hp : junk.isPrefixOf s = true
    · obtain ⟨t, rfl⟩ := List.isPrefixOf_iff_prefix.mp hp
      rw [replaceLoop_here _ _ _ junk_ne_nil n hn, List.nil_append]
      have hlen : t.length ≤ N := by
        rw [List.length_append, junk_length] at hs; omega
      have h1 : starsClearOf9A true t = true := by
        rw [junk_last, List.append_assoc, List.singleton_append] at h
        exact starsClearOf9A_append_cons _ _ _ _ h
      exact ih t (n - 1) p hlen (starsClearOf9A_weaken p t h1)
    · have hp' : junk.isPrefixOf s = false := eq_false_of_ne_true hp
      cases s with
      | nil => rfl
      | cons x xs =>
        rw [replaceLoop_cons _ _ _ _ _ hn hp']
        rw [starsClearOf9A_cons, Bool.and_eq_true] at h ⊢
        have hlen : xs.length ≤ N := by
          simp only [List.length_cons] at hs; omega
        exact ⟨h.1, ih xs n _ hlen h.2⟩

theorem star_not_leading (t : GoString) (h : starsClearOf9A true t = true) :
    star.isPrefixOf t = false := by
  cases t with
  | nil => rfl
  | cons x xs =>
    rw [starsClearOf9A_cons, Bool.and_eq_true] at h
    have hx : (0x2A : UInt8) ≠ x := by
      intro e
      rw [← e] at h
      exact absurd h.1 (by decide)
    simp [star_eq, isPrefixOf_cons_cons, hx]

/-- If the output of the removal of `"*."` starts with `k` units, so does the
input, provided the input does not start with `"*."`. -/
theorem starLoop_units (N : Nat) :
    ∀ (s : GoString) (n : Int) (p : Bool) (k : Nat), s.length ≤ N → n ≠ 0 →
      leadBytesFollowed s = true → starsClearOf9A p s = true →
      star.isPrefixOf s = false →
      (List.replicate k junkUnit).flatten <+: replaceLoop star [] s.length n s →
      (List.replicate k junkUnit).flatten <+: s := by
  induction N with
  | zero =>
    intro s n p k hs _ _ _ _ hk
    have hnil : s = [] := List.length_eq_zero.mp (Nat.le_zero.mp hs)
    subst hnil
    exact hk
  | succ N ih =>
    intro s n p k hs hn hP hQ hnp hk
    cases k with
    | zero => simp
    | succ k =>
      rw [units_succ] at hk ⊢
      cases s with
      | nil => simp [replaceLoop] at hk
      | cons x xs =>
        rw [replaceLoop_cons _ _ _ _ _ hn hnp, List.cons_prefix_cons] at hk
        obtain ⟨hx, hk⟩ := hk
        obtain ⟨y, z, rest, rfl, hy, hz⟩ := (leadBytesFollowed_cons hP).1 hx.symm
        have hy2 : (0x2A : UInt8) ≠ y := Ne.symm (isContinuation_ne hy).2
        have hz2 : (0x2A : UInt8) ≠ z := Ne.symm (isContinuation_ne hz).2
        rw [replaceLoop_cons _ _ _ _ _ hn (by simp [star_eq, isPrefixOf_cons_cons, hy2]),
          List.cons_prefix_cons] at hk
        obtain ⟨hy85, hk⟩ := hk
        rw [replaceLoop_cons _ _ _ _ _ hn (by simp [star_eq, isPrefixOf_cons_cons, hz2]),
          List.cons_prefix_cons] at hk
        obtain ⟨hz9A, hk⟩ := hk
        have hPrest : leadBytesFollowed rest = true :=
          (leadBytesFollowed_cons (leadBytesFollowed_cons (leadBytesFollowed_cons hP).2).2).2
        have hQrest : starsClearOf9A true rest = true := by
          have := starsClearOf9A_append_cons p [x, y] z rest hQ
          rwa [← hz9A] at this
        have hlen : rest.length ≤ N := by
          simp only [List.length_cons] at hs; omega
        have hrec := ih rest n true k hlen hn hPrest hQrest (star_not_leading rest hQrest) hk
        rw [← hx, ← hy85, ← hz9A]
        exact List.cons_prefix_cons.mpr ⟨rfl, List.cons_prefix_cons.mpr
          ⟨rfl, List.cons_prefix_cons.mpr ⟨rfl, hrec⟩⟩⟩

/-- The removal of `"*."` does not bring a junk sequence into a string without
one, when every `E1` is followed by two continuation bytes and no `*` comes
directly after a `9A`. -/
theorem starLoop_junk_free (N : Nat) :
    ∀ (s : GoString) (n : Int) (p : Bool), s.length ≤ N → n < 0 →
      leadBytesFollowed s = true → starsClearOf9A p s = true → ¬ junk <:+: s →
      ¬ junk <:+: replaceLoop star [] s.length n s := by
  induction N with
  | zero =>
    intro s n p hs _ _ _ hfree
    have hnil : s = [] := List.length_eq_zero.mp (Nat.le_zero.mp hs)
    subst hnil
    exact hfree
  | succ N ih =>
    intro s n p hs hn hP hQ hfree hk
    by_cases hp : star.isPrefixOf s = true
    · obtain ⟨t, rfl⟩ := List.isPrefixOf_iff_prefix.mp hp
      rw [replaceLoop_here _ _ _ star_ne_nil n (by omega), List.nil_append] at hk
      have hlen : t.length ≤ N := by
        simp only [List.length_append, star_eq, List.length_cons] at hs; omega
      have hQt : starsClearOf9A false t = true := by
        rw [star_eq, List.cons_append, List.cons_append, List.nil_append] at hQ
        exact starsClearOf9A_append_cons p [0x2A] 0x2E t hQ
      exact ih t (n - 1) false hlen (by omega) (leadBytesFollowed_append hP) hQt
        (fun h => hfree (h.trans (List.suffix_append _ _).isInfix)) hk
    · have hp' : star.isPrefixOf s = false := eq_false_of_ne_true hp
      cases s with
      | nil => exact hfree hk
      | cons x xs =>
        have hpre := starLoop_units (N + 1) (x :: xs) n p 29 hs (by omega) hP hQ hp'
        rw [replaceLoop_cons _ _ _ _ _ (by omega) hp'] at hk hpre
        rcases List.infix_cons_iff.mp hk with h | h
        · exact hfree (hpre h).isInfix
        · have hlen : xs.length ≤ N := by
            simp only [List.length_cons] at hs; omega
          rw [starsClearOf9A_cons, Bool.and_eq_true] at hQ
          exact ih xs n _ hlen hn (leadBytesFollowed_cons hP).2 hQ.2
            (fun h' => hfree (h'.trans (List.suffix_cons _ _).isInfix)) h

/-! ## The claims -/

/-- Claim C1: for every list of strings `s`, `removeDuplicates s` is the reference
list "keep the element at a position iff it does not occur earlier in `s`"
(equality of byte strings); so it has no repetition, has exactly the members of
`s`, and keeps them in the order in which they first occur in `s`. -/
theorem removeDuplicates_first_occurrences (s : List GoString) :
    removeDuplicates s = keepFirstOccurrences s ∧
    (removeDuplicates s).Nodup ∧
    (∀ x, x ∈ removeDuplicates s ↔ x ∈ s) ∧
    (removeDuplicates s).Sublist s := by
  refine ⟨removeDuplicates_eq_filter s, removeDuplicatesLoop_nodup _ _, ?_, ?_⟩
  · intro x
    rw [removeDuplicates, removeDuplicatesLoop_mem]
    simp
  · rw [removeDuplicates_eq_filter, keepFirstOccurrences]
    have h := (List.filter_sublist (p := fun p => decide (p.2 ∉ s.take p.1))
      (l := s.enum)).map Prod.snd
    rwa [List.enum_map_snd] at h

set_option maxRecDepth 100000 in
/-- Claim C2, as stated, fails: on the body
`visit https://foo.example.com/path and www.bar.com/x` the matches of the pattern
are not `https://foo.example.com` and `www.bar.com`. -/
theorem jldc_example_not_as_stated :
    FindAllString jldcRegex (str "visit https://foo.example.com/path and www.bar.com/x") ≠
      [str "https://foo.example.com", str "www.bar.com"] := by
  decide

set_option maxRecDepth 100000 in
/-- Claim C2, amended: on the body
`visit https://foo.example.com/path and www.bar.com/x` the matches of the pattern
are `https://foo.example.com` and `path and www.bar.com`. After the first match
the search goes on at `/path`; the leftmost position where an alternative matches
is the `p` of `path`, where `[^/]+\.com` matches up to the end of `www.bar.com`. -/
theorem jldc_example_matches :
    FindAllString jldcRegex (str "visit https://foo.example.com/path and www.bar.com/x") =
      [str "https://foo.example.com", str "path and www.bar.com"] := by
  decide

/-- Claim C3: the names extracted from `crtData` are, in record order, the
normalised `name_value` of every record in which that key is present with a string
value, and nothing for the other records; a name that normalises to the empty
string is kept. The two records of the specification give `a.example.com` and
`b.example.com`. -/
theorem crtSubdomainsOf_records (crtData : List Record) :
    crtSubdomainsOf crtData = (crtData.filterMap nameValueOf).map normalise ∧
    (∀ (entry : Record) (v : GoString), nameValueOf entry = some v ↔
      entry.lookup (str "name_value") = some (.string v)) ∧
    crtSubdomainsOf [[(str "name_value", .string (str "*.a.example.com"))],
        [(str "name_value", .string (str "b.example.com"))]] =
      [str "a.example.com", str "b.example.com"] ∧
    crtSubdomainsOf [[(str "name_value", .string (str "*."))], [(str "name_value", .null)],
        [(str "id", .string (str "c.example.com"))]] = [[]] := by
  refine ⟨?_, ?_, by decide, by decide⟩
  · rw [crtSubdomainsOf, crtSubdomainsLoop_eq, List.nil_append]
  · intro entry v
    unfold nameValueOf
    split
    · next w hw => simp [hw]
    · next hne =>
      constructor
      · intro h; exact absurd h (by simp)
      · intro h; exact absurd h (hne v)

/-- Claim C4, as stated, fails: the name `*.a.*.b` is normalised to `a.b`, not to
`a.*.b`; the second `*.` is removed by `filterUnwantedChars`. -/
theorem normalise_later_star_not_kept :
    normalise (str "*.a.*.b") = str "a.b" ∧ normalise (str "*.a.*.b") ≠ str "a.*.b" := by
  decide

/-- Claim C4, amended: the normalisation removes every occurrence of `*.`, not only
the first. For every name made of segments that contain neither the byte `*` nor
the byte `E1` (so no junk sequence), joined by `*.`, the result is the
concatenation of the segments. -/
theorem normalise_removes_every_star (segs : List GoString)
    (h : ∀ g ∈ segs, (0x2A : UInt8) ∉ g ∧ (0xE1 : UInt8) ∉ g) :
    normalise (star.intercalate segs) = segs.flatten := by
  have hE1 : ∀ l : List GoString, (∀ g ∈ l, (0x2A : UInt8) ∉ g ∧ (0xE1 : UInt8) ∉ g) →
      (0xE1 : UInt8) ∉ star.intercalate l :=
    fun l hl => not_mem_intercalate _ _ _ (by decide) (fun t ht => (hl t ht).2)
  unfold normalise filterUnwantedChars
  match segs, h with
  | [], _ => decide
  | [g], h =>
    have hg := h g (List.mem_cons_self _ _)
    have hi : star.intercalate [g] = g := by simp [List.intercalate, List.intersperse]
    simp only [hi]
    rw [Replace_star_absent _ _ hg.1, Replace_junk_absent _ _ hg.2, Replace_star_absent _ _ hg.1]
    simp
  | g :: t :: ts, h =>
    have hg := h g (List.mem_cons_self _ _)
    have ht := h t (List.mem_cons_of_mem _ (List.mem_cons_self _ _))
    have h' : ∀ u ∈ (g ++ t) :: ts, (0x2A : UInt8) ∉ u ∧ (0xE1 : UInt8) ∉ u := by
      intro u hu
      rcases List.mem_cons.mp hu with rfl | hu
      · simp only [List.mem_append, not_or]
        exact ⟨⟨hg.1, ht.1⟩, hg.2, ht.2⟩
      · exact h u (List.mem_cons_of_mem _ (List.mem_cons_of_mem _ hu))
    simp only []
    rw [Replace_star_once g t ts hg.1, Replace_junk_absent _ _ (hE1 _ h'),
      Replace_star_intercalate _ _ _ (by omega) (h' _ (List.mem_cons_self _ _)).1
        (fun u hu => (h' u (List.mem_cons_of_mem _ hu)).1)]
    simp

/-- The name `*.a.*.b` is the segments ``, `a.` and `b` joined by `*.`; it is
normalised to `a.b`. -/
theorem normalise_removes_every_star_witness :
    (∀ g ∈ [[], str "a.", str "b"], (0x2A : UInt8) ∉ g ∧ (0xE1 : UInt8) ∉ g) ∧
    star.intercalate [[], str "a.", str "b"] = str "*.a.*.b" ∧
    normalise (star.intercalate [[], str "a.", str "b"]) = [[], str "a.", str "b"].flatten :=
  ⟨by decide, by decide, normalise_removes_every_star _ (by decide)⟩

set_option maxRecDepth 100000 in
/-- Claim C5, as stated, fails. The name made of 14 units `E1 85 9A`, then `*.*.`,
then 15 units is valid UTF-8 and holds no junk sequence; the count-1 removal and
then the removal of the remaining `*.` join the units, and the result is the junk
sequence itself. Without any `*`, the broken text `E1 85`, junk, `9A`, 28 units
also gives the junk sequence: removing the one instance joins what is around it.
A single `*` directly after a unit is enough as well: in 14 units, `*`, junk, `.`,
15 units the removal of the junk sequence makes a `*.`, whose removal joins the
units. -/
theorem normalise_junk_remains :
    leadBytesApart ((List.replicate 14 junkUnit).flatten ++ str "*.*." ++
      (List.replicate 15 junkUnit).flatten) = true ∧
    normalise ((List.replicate 14 junkUnit).flatten ++ str "*.*." ++
      (List.replicate 15 junkUnit).flatten) = junk ∧
    junk <:+: normalise ((List.replicate 14 junkUnit).flatten ++ str "*.*." ++
      (List.replicate 15 junkUnit).flatten) ∧
    (0x2A : UInt8) ∉ ([0xE1, 0x85] ++ junk ++ [0x9A] ++ (List.replicate 28 junkUnit).flatten) ∧
    normalise ([0xE1, 0x85] ++ junk ++ [0x9A] ++ (List.replicate 28 junkUnit).flatten) = junk ∧
    leadBytesFollowed ((List.replicate 14 junkUnit).flatten ++ str "*.*." ++
      (List.replicate 15 junkUnit).flatten) = true ∧
    leadBytesFollowed ((List.replicate 14 junkUnit).flatten ++ str "*" ++ junk ++ str "." ++
      (List.replicate 15 junkUnit).flatten) = true ∧
    normalise ((List.replicate 14 junkUnit).flatten ++ str "*" ++ junk ++ str "." ++
      (List.replicate 15 junkUnit).flatten) = junk := by
  have h : normalise ((List.replicate 14 junkUnit).flatten ++ str "*.*." ++
      (List.replicate 15 junkUnit).flatten) = junk := by decide
  exact ⟨by decide, h, h.symm ▸ List.infix_refl _, by decide, by decide, by decide, by decide,
    by decide⟩

/-- Claim C5, amended: for every name in which every byte `E1` is followed by two
continuation bytes (as in all valid UTF-8 text) and in which no byte `*` comes
directly after a byte `9A`, the last byte of a unit of the junk sequence, the
result of the normalisation does not contain the junk sequence anywhere. The name
may hold any number of `*.` and of junk sequences, at any position. -/
theorem normalise_no_junk (s : GoString) (hutf : leadBytesFollowed s = true)
    (hstar : starsClearOf9A false s = true) : ¬ junk <:+: normalise s := by
  unfold normalise filterUnwantedChars
  simp only [Replace_eq _ _ _ _ star_ne_nil star_ne_nil,
    Replace_eq _ _ _ _ junk_ne_nil junk_ne_nil]
  have hP1 : leadBytesFollowed (replaceLoop star [] s.length 1 s) = true :=
    replaceLoop_leadBytesFollowed 0x2A [0x2E] (by decide) s.length s 1 (Nat.le_refl _) hutf
  have hQ1 : starsClearOf9A false (replaceLoop star [] s.length 1 s) = true :=
    starLoop_starsClearOf9A s.length s 1 false (Nat.le_refl _) hstar
  generalize replaceLoop star [] s.length 1 s = s₁ at hP1 hQ1 ⊢
  have hP2 : leadBytesFollowed (replaceLoop junk [] s₁.length (-1) s₁) = true := by
    have := replaceLoop_leadBytesFollowed 0xE1
      (0x85 :: 0x9A :: (List.replicate 28 junkUnit).flatten) (by decide) s₁.length s₁ (-1)
      (Nat.le_refl _) hP1
    rwa [← junk_eq] at this
  have hQ2 : starsClearOf9A false (replaceLoop junk [] s₁.length (-1) s₁) = true :=
    junkLoop_starsClearOf9A s₁.length s₁ (-1) false (Nat.le_refl _) hQ1
  have hfree : ¬ junk <:+: replaceLoop junk [] s₁.length (-1) s₁ :=
    junkLoop_junk_free s₁.length s₁ (Nat.le_refl _) (leadBytesApart_of_followed s₁ hP1) (-1)
      (by omega)
  generalize replaceLoop junk [] s₁.length (-1) s₁ = s₂ at hP2 hQ2 hfree ⊢
  exact starLoop_junk_free s₂.length s₂ (-1) false (Nat.le_refl _) (by omega) hP2 hQ2 hfree

set_option maxRecDepth 100000 in
/-- A wildcard name with two `*.`, a junk sequence in the middle and one at the
end; it is normalised to `a.b.example.com`. -/
theorem normalise_no_junk_witness :
    leadBytesFollowed (str "*.a." ++ junk ++ str "b.*.example.com" ++ junk) = true ∧
    starsClearOf9A false (str "*.a." ++ junk ++ str "b.*.example.com" ++ junk) = true ∧
    normalise (str "*.a." ++ junk ++ str "b.*.example.com" ++ junk) = str "a.b.example.com" ∧
    ¬ junk <:+: normalise (str "*.a." ++ junk ++ str "b.*.example.com" ++ junk) :=
  ⟨by decide, by decide, by decide, normalise_no_junk _ (by decide) (by decide)⟩

/-- Claim C6, as stated, fails: an entry that contains a newline byte, such as a
`name_value` that lists two names, is written as it is and makes two lines. -/
theorem fileText_entry_with_newline :
    splitLines (fileText (removeDuplicates [str "a.example.com\nb.example.com"])) =
      [str "a.example.com", str "b.example.com"] ∧
    splitLines (fileText (removeDuplicates [str "a.example.com\nb.example.com"])) ≠
      removeDuplicates [str "a.example.com\nb.example.com"] := by
  decide

/-- Claim C6, amended: for every list of entries none of which contains a newline
byte, the text written to the output file is every deduplicated entry followed by
a newline, in deduplicated order; split at the newlines it is exactly the
deduplicated entries, one line per entry. -/
theorem fileText_lines (entries : List GoString) (h : ∀ e ∈ entries, newline ∉ e) :
    fileText (removeDuplicates entries) =
      ((removeDuplicates entries).map (fun e => e ++ [newline])).flatten ∧
    splitLines (fileText (removeDuplicates entries)) = removeDuplicates entries ∧
    (splitLines (fileText (removeDuplicates entries))).length =
      (removeDuplicates entries).length := by
  have hmem : ∀ e ∈ removeDuplicates entries, newline ∉ e := by
    intro e he
    rw [removeDuplicates, removeDuplicatesLoop_mem] at he
    exact h e he.1
  have hlines : splitLines (fileText (removeDuplicates entries)) = removeDuplicates entries :=
    splitLines_fileText _ hmem
  refine ⟨?_, hlines, by rw [hlines]⟩
  rw [fileText, writeLoop_eq, List.nil_append]

/-- Three entries, one of them repeated, make two lines. -/
theorem fileText_lines_witness :
    (∀ e ∈ [str "a.example.com", str "b.example.com", str "a.example.com"], newline ∉ e) ∧
    splitLines (fileText (removeDuplicates
        [str "a.example.com", str "b.example.com", str "a.example.com"])) =
      removeDuplicates [str "a.example.com", str "b.example.com", str "a.example.com"] ∧
    removeDuplicates [str "a.example.com", str "b.example.com", str "a.example.com"] =
      [str "a.example.com", str "b.example.com"] :=
  ⟨by decide, (fileText_lines _ (by decide)).2.1, by decide⟩

/-- Claim C7 at the failing input: in `mergeWorld` the first 2 attempts on crt.sh
fail (`json.Unmarshal` returns a type error on `[{"name_value":"stale.example.com"},5]`)
and the 3rd succeeds with the body `[{"id":1}]`, which holds no name; 3 requests
are made. The result of the source is not the extraction from the data of the 3rd
attempt, which is empty: it is `stale.example.com`, the name that the failed
attempts left in `crtData` and into whose map the 3rd body is decoded. The output
file holds that name. -/
theorem crtLoop_success_keeps_stale_names :
    (∀ k < 2, (mergeWorld.crt (crtURLOf (str "example.com")) k).failed = true) ∧
    mergeWorld.crt (crtURLOf (str "example.com")) 2 = .document cleanBody ∧
    (mergeWorld.crt (crtURLOf (str "example.com")) 2).failed = false ∧
    crtSubdomainsOf (unmarshal cleanBody ⟨[], []⟩).1.elems = [] ∧
    requestsMade (crtLoop mergeWorld (crtURLOf (str "example.com")) 3 0 ⟨[], []⟩).1 = 3 ∧
    crtSubdomainsOf (crtLoop mergeWorld (crtURLOf (str "example.com")) 3 0 ⟨[], []⟩).2.elems =
      [str "stale.example.com"] ∧
    (main mergeWorld (str "example.com") (str "out/subdomains.txt")).exit = .returned ∧
    (main mergeWorld (str "example.com") (str "out/subdomains.txt")).file =
      some (str "stale.example.com\n") := by
  refine ⟨by decide, rfl, by decide, by decide, by decide, by decide, by decide, by decide⟩

/-- Claim C8 at the failing input: in `staleWorld` the domain and the output path
are not empty, the directory and the file are created, and all 3 attempts of both
sources fail; the run returns, but the output file is not empty: it holds the name
that the failed `json.Unmarshal` left in `crtData`. -/
theorem main_failed_decode_leaves_names :
    str "example.com" ≠ [] ∧ str "out/subdomains.txt" ≠ [] ∧
    staleWorld.mkdirAll (staleWorld.filepathDir (str "out/subdomains.txt")) = none ∧
    staleWorld.create (str "out/subdomains.txt") = none ∧
    (∀ k < 3, (staleWorld.jldc (jldcURLOf (str "example.com")) k).failed = true) ∧
    (∀ k < 3, (staleWorld.crt (crtURLOf (str "example.com")) k).failed = true) ∧
    (main staleWorld (str "example.com") (str "out/subdomains.txt")).exit = .returned ∧
    (main staleWorld (str "example.com") (str "out/subdomains.txt")).file =
      some (str "x.example.com\n") := by
  decide

/-- Claim C9: with an empty `-d` value the run is the single step `log.Fatal` with
the message `Please provide a domain using the -d flag`; with a non-empty `-d` and
an empty `-o` value it is the single step `log.Fatal` with the message
`Please provide an output file using the -o flag`. In both cases no request is
made and no directory or file is created or written. -/
theorem main_missing_flag (w : World) (domain outputFile : GoString) :
    (domain = [] → main w domain outputFile =
      ⟨[.fatal (str "Please provide a domain using the -d flag")], .fatal, none⟩) ∧
    (domain ≠ [] → outputFile = [] → main w domain outputFile =
      ⟨[.fatal (str "Please provide an output file using the -o flag")], .fatal, none⟩) ∧
    (domain = [] ∨ outputFile = [] → requestsMade (main w domain outputFile).events = 0 ∧
      ∀ x, Event.httpGet x ∉ (main w domain outputFile).events ∧
        Event.mkdirAll x ∉ (main w domain outputFile).events ∧
        Event.create x ∉ (main w domain outputFile).events ∧
        Event.write x ∉ (main w domain outputFile).events) := by
  refine ⟨fun hd => by simp [main, hd], fun hd ho => by simp [main, hd, ho], ?_⟩
  intro h
  by_cases hd : domain = []
  · simp [main, hd, requestsMade]
  · have ho : outputFile = [] := h.resolve_left hd
    simp [main, hd, ho, requestsMade]

/-- A run without `-d` and a run without `-o`. -/
theorem main_missing_flag_witness :
    (main retryWorld [] (str "out.txt")).events =
      [.fatal (str "Please provide a domain using the -d flag")] ∧
    (str "example.com" ≠ [] ∧ (main retryWorld (str "example.com") []).events =
      [.fatal (str "Please provide an output file using the -o flag")]) ∧
    requestsMade (main retryWorld (str "example.com") []).events = 0 :=
  ⟨by rw [(main_missing_flag retryWorld [] (str "out.txt")).1 rfl],
    ⟨by decide,
      by rw [(main_missing_flag retryWorld (str "example.com") []).2.1 (by decide) rfl]⟩,
    ((main_missing_flag retryWorld (str "example.com") []).2.2 (Or.inr rfl)).1⟩

/-- Claim C10: the aggregate is `removeDuplicates` of the matches of source A
followed by the names of source B. The matches of A enter it as they are, without
normalisation, and each of them is a member of the aggregate; `removeDuplicates`
of the matches of A is a prefix of the aggregate, and the rest of the aggregate is
`removeDuplicates` of the names of B that do not occur among the matches of A. -/
theorem allSubdomainsOf_sources (jldcSubdomains : List GoString) (crtData : List Record) :
    allSubdomainsOf jldcSubdomains crtData =
      removeDuplicates (jldcSubdomains ++ crtSubdomainsOf crtData) ∧
    allSubdomainsOf jldcSubdomains crtData =
      removeDuplicates jldcSubdomains ++
        removeDuplicates
          ((crtSubdomainsOf crtData).filter (fun x => !decide (x ∈ jldcSubdomains))) ∧
    removeDuplicates jldcSubdomains <+: allSubdomainsOf jldcSubdomains crtData ∧
    (∀ a ∈ jldcSubdomains, a ∈ allSubdomainsOf jldcSubdomains crtData) := by
  have h : allSubdomainsOf jldcSubdomains crtData =
      removeDuplicates jldcSubdomains ++
        removeDuplicates
          ((crtSubdomainsOf crtData).filter (fun x => !decide (x ∈ jldcSubdomains))) := by
    rw [allSubdomainsOf, removeDuplicates, removeDuplicatesLoop_append, removeDuplicates,
      removeDuplicates,
      ← removeDuplicatesLoop_filter (fun x => decide (x ∈ jldcSubdomains)) (fun _ => false)]
    congr 2
    funext k
    simp
  refine ⟨rfl, h, ?_, ?_⟩
  · rw [h]; exact List.prefix_append _ _
  · intro a ha
    rw [allSubdomainsOf, removeDuplicates, removeDuplicatesLoop_mem]
    exact ⟨List.mem_append_left _ ha, rfl⟩

end Subgo
